import Mathlib

/-!
Verification of the Sudoku solver in sudoku_solver.py.

The program represents a board as a Python dict from the 81 cell names
(A1..I9, row-major) to integer values, 0 meaning empty.  We embed cells as
pairs of Fin 9 (row, column) and validated boards as row-major lists of 81
natural numbers.  Fallible construction (the assert in Board.__init__,
which raises AssertionError on a neighbour duplicate and KeyError on a
missing cell) is embedded as an Except returning the typed error
InvalidBoard.

One genuinely implementation-dependent point: in create_children the
candidate values of the chosen cell are drawn with set.pop() from a Python
set that was built as full_set - set(neighbour_values).  The order of
set.pop() is a CPython hash-table artifact.  We model it exactly for this
use case (distinct keys drawn from 1..9, built by inserting in ascending
order): CPython places an int key v in the slot v mod 8 of an 8-slot table,
resolving collisions by the probe sequence i -> (5*i+1) mod 8 (the perturb
term is v >> 5 = 0 for v <= 9), resizes the table to 32 slots - where the
nine possible keys collide nowhere, so iteration is ascending - as soon as
a fifth element is inserted, and pop() returns elements in table-slot
order.  The popOrder function below reproduces this; it was checked against
CPython 3.11 on all 511 nonempty subsets of 1..9 built the way the program
builds them.
-/

namespace Sudoku

set_option maxRecDepth 40000

/-- A cell position: row and column, each 0..8 (the program's A..I and 1..9).
The program's row-major order on cell names corresponds to the numeric
order of posIdx. -/
abbrev Pos := Fin 9 × Fin 9

/-- Row-major index of a position, 0..80. -/
def posIdx (p : Pos) : ℕ := 9 * p.1.val + p.2.val

/-- The list of all 81 positions in row-major order; embeds the positions
list built in elements_of_sudoku. -/
def positions : List Pos :=
  (List.finRange 9).flatMap fun r => (List.finRange 9).map fun c => (r, c)

/-- Whether q is a neighbour of p: distinct and sharing a row, a column or
a 3x3 box.  Embeds membership in neighbours[pos] from elements_of_sudoku
(row union column union matrix, minus the cell itself). -/
def isNeighbour (p q : Pos) : Bool :=
  (q != p) && (q.1 == p.1 || q.2 == p.2 ||
    (q.1.val / 3 == p.1.val / 3 && q.2.val / 3 == p.2.val / 3))

/-- The neighbour list of a cell (the program stores it as a 20-element
list; only membership in it is ever used). -/
def neighbours (p : Pos) : List Pos := positions.filter (isNeighbour p)

/-- A validated board: the 81 cell values in row-major order.  Embeds the
dict self.board of a constructed Board object. -/
abbrev Board := List ℕ

/-- Reading a cell, board[pos]. -/
def bget (b : Board) (p : Pos) : ℕ := b.getD (posIdx p) 0

/-- Writing one cell of a copy of the board: the child_board obtained by
copy.copy(self.board) followed by child_board[pos] = v. -/
def bset (b : Board) (p : Pos) (v : ℕ) : Board := b.set (posIdx p) v

/-- Embeds Board.board_is_solved: no cell holds 0. -/
def board_is_solved (b : Board) : Bool := positions.all fun p => bget b p != 0

/-- The consistency property checked by Board._assert_board_is_correct on a
full board: every nonzero cell differs from all of its neighbours. -/
def Valid (b : Board) : Prop :=
  ∀ p : Pos, bget b p ≠ 0 → ∀ q : Pos, isNeighbour p q = true → bget b q ≠ bget b p

instance : DecidablePred Valid := fun _ => by unfold Valid; infer_instance

/-- Number of empty cells of a board. -/
def emptyCount (b : Board) : ℕ := (positions.filter fun p => bget b p == 0).length

/-- Number of filled (nonzero) cells of a board. -/
def filledCount (b : Board) : ℕ := (positions.filter fun p => bget b p != 0).length

/-- The candidate list of a cell: full_set - set(neighbour_values), listed
in the ascending order in which the program's set difference inserts the
values into the fresh result set (full_set iterates ascending). -/
def candList (b : Board) (p : Pos) : List ℕ :=
  let ns := (neighbours p).map (bget b)
  (List.range' 1 9).filter fun v => !(ns.contains v)

/-- CPython probe sequence step on the 8-slot table: i -> (5*i+1) mod 8. -/
def probeNext (i : ℕ) : ℕ := (5 * i + 1) % 8

/-- The first n slots probed starting from slot i. -/
def probeIter : ℕ → ℕ → List ℕ
  | 0, _ => []
  | n + 1, i => i :: probeIter n (probeNext i)

/-- The 8 slots CPython probes, in order, when inserting the int key v into
an 8-slot set table (hash(v) = v; the perturb term is zero for v <= 9). -/
def probeList (v : ℕ) : List ℕ := probeIter 8 (v % 8)

/-- An 8-slot hash table over small int keys. -/
abbrev Table := List (Option ℕ)

/-- Insert a key not already present: occupy the first free probed slot. -/
def tInsert (t : Table) (v : ℕ) : Table :=
  match (probeList v).find? (fun i => t.getD i (some 0) == none) with
  | some i => t.set i (some v)
  | none => t

/-- Build the 8-slot table by inserting the keys in list order. -/
def buildTable (l : List ℕ) : Table := l.foldl tInsert (List.replicate 8 none)

/-- The keys of a table in slot order, which is the order set.pop() drains
a CPython set. -/
def tableElems (t : Table) : List ℕ := t.filterMap id

/-- The order in which repeated set.pop() returns the elements of the
CPython set built by inserting the distinct keys of l (all in 1..9) in list
order: ascending once a fifth insertion has resized the table to 32 slots,
slot order of the 8-slot table otherwise. -/
def popOrder (l : List ℕ) : List ℕ :=
  if 5 ≤ l.length then l else tableElems (buildTable l)

/-- Result of the single row-major scan in Board.create_children (lines
131-152): the first empty cell with at most one candidate decides it. -/
inductive ScanRes where
  | dead : ScanRes
  | force : Pos → ℕ → ScanRes
  | complete : ScanRes
deriving DecidableEq

/-- The scan of lines 131-152: filled cells are skipped; the first empty
cell with no candidate yields dead (the program appends None and returns);
the first empty cell with a single candidate v yields force (the program
appends the board with v filled in and returns); otherwise the scan runs to
the end. -/
def scanB (b : Board) : List Pos → ScanRes
  | [] => .complete
  | p :: rest =>
    if bget b p != 0 then scanB b rest
    else
      match candList b p with
      | [] => .dead
      | [v] => .force p v
      | _ => scanB b rest

/-- The keys of pos_options (lines 159-167): empty cells whose candidate
set is nonempty, in row-major (insertion) order. -/
def posOptions (b : Board) : List Pos :=
  positions.filter fun p => bget b p == 0 && !(candList b p).isEmpty

/-- One step of Python's min over the pos_options keys with key
len(pos_options[x]): keep the incumbent unless the new key is strictly
smaller, so the first minimum wins. -/
def minStep (b : Board) (acc : Option Pos) (p : Pos) : Option Pos :=
  match acc with
  | none => some p
  | some q => if (candList b p).length < (candList b q).length then some p else acc

/-- The position min(pos_options, key=...) selects (line 168); none when
pos_options is empty, where Python would raise ValueError. -/
def minPos? (b : Board) : Option Pos := (posOptions b).foldl (minStep b) none

/-- The four shapes the children list of a board can take; the spec's
ChildOutcome.  deadEnd corresponds to the single None sentinel, forced to a
single child, branch to the children created in lines 170-175. -/
inductive ChildOutcome where
  | noChildren : ChildOutcome
  | deadEnd : ChildOutcome
  | forced : Board → ChildOutcome
  | branch : List Board → ChildOutcome
deriving DecidableEq

/-- The outcome of Board.create_children on a board: nothing if solved,
else the scan's verdict, else the branch over the minimum-candidate cell,
one child per set.pop() of its candidate set in pop order.  The none case
of minPos? stands for the ValueError min would raise on an empty
pos_options; it is proved unreachable (claim C9). -/
def outcome (b : Board) : ChildOutcome :=
  if board_is_solved b then .noChildren
  else
    match scanB b positions with
    | .dead => .deadEnd
    | .force p v => .forced (bset b p v)
    | .complete =>
      match minPos? b with
      | none => .noChildren
      | some m => .branch ((popOrder (candList b m)).map fun v => bset b m v)

/-- The children list exactly as Board.create_children leaves self.children:
the None sentinel embedded as none, child boards as some. -/
def create_children (b : Board) : List (Option Board) :=
  match outcome b with
  | .noChildren => []
  | .deadEnd => [none]
  | .forced c => [some c]
  | .branch cs => cs.map some

/-- The loop of solve_board over board.children (lines 193-204): a None
element returns None at once; otherwise recurse and keep the first
solution. -/
def tryChildren (f : Board → Option Board) : List (Option Board) → Option Board
  | [] => none
  | none :: _ => none
  | some c :: rest =>
    match f c with
    | some s => some s
    | none => tryChildren f rest

/-- solve_board with explicit recursion fuel: each level consumes one unit.
The program's recursion is exactly this with unlimited fuel; the fuel bound
theorem for claim C7 shows emptyCount b + 1 units always suffice. -/
def solveFuel : ℕ → Board → Option Board
  | 0, _ => none
  | n + 1, b =>
    if board_is_solved b then some b
    else tryChildren (solveFuel n) (create_children b)

/-- Embeds solve_board (lines 186-207). -/
def solve_board (b : Board) : Option Board := solveFuel (emptyCount b + 1) b

/-- The typed failure of Board construction (spec name InvalidBoard): the
program raises AssertionError on a neighbour duplicate and KeyError on a
missing cell, both inside Board.__init__ before the object is usable. -/
inductive InvalidBoard where
  | invalidBoard : InvalidBoard
deriving DecidableEq

/-- A raw assignment as handed to Board(board=...): a key-value list
standing for the Python dict; lookup of a cell name. -/
def lookupA (a : List (Pos × ℕ)) (p : Pos) : Option ℕ := a.lookup p

/-- Whether the loop of _assert_board_is_correct runs to completion:
reading a missing cell (none) is the KeyError, a nonzero value equal to a
neighbour's is the failed assert. -/
def assertOk (f : Pos → Option ℕ) : Bool :=
  positions.all fun p =>
    match f p with
    | none => false
    | some v =>
      v == 0 || (neighbours p).all fun q =>
        match f q with
        | none => false
        | some w => v != w

/-- Embeds Board.__init__ on an assignment: store the 81 values row-major
if the consistency loop passes, otherwise the typed failure. -/
def construct (a : List (Pos × ℕ)) : Except InvalidBoard Board :=
  if assertOk (lookupA a) then .ok (positions.map fun p => (lookupA a p).getD 0)
  else .error .invalidBoard

/-- Count of cells of row r holding value v. -/
def rowVCount (b : Board) (r : Fin 9) (v : ℕ) : ℕ :=
  ((List.finRange 9).filter fun c => bget b (r, c) == v).length

/-- Count of cells of column c holding value v. -/
def colVCount (b : Board) (c : Fin 9) (v : ℕ) : ℕ :=
  ((List.finRange 9).filter fun r => bget b (r, c) == v).length

/-- Index 0..8 of the 3x3 box containing a position. -/
def boxIdx (p : Pos) : ℕ := 3 * (p.1.val / 3) + p.2.val / 3

/-- Count of cells of box k holding value v. -/
def boxVCount (b : Board) (k : ℕ) (v : ℕ) : ℕ :=
  (positions.filter fun p => boxIdx p == k && bget b p == v).length

/-- A concrete fully solved board, used as a witness input.  Its top band
contains the rectangle A1=3, A4=8, B1=8, B4=3. -/
def G : Board :=
  [3,1,2,8,9,4,5,6,7,
   8,5,6,3,1,7,2,4,9,
   4,7,9,2,5,6,1,3,8,
   1,2,3,4,6,8,7,9,5,
   5,4,7,1,2,9,3,8,6,
   6,9,8,5,7,3,4,1,2,
   2,3,1,6,8,5,9,7,4,
   7,6,4,9,3,2,8,5,1,
   9,8,5,7,4,1,6,2,3]

/-- G with the rectangle cells A1, A4, B1, B4 blanked: every empty cell has
candidate set exactly 3 and 8, so create_children branches at A1. -/
def B0 : Board :=
  [0,1,2,0,9,4,5,6,7,
   0,5,6,0,1,7,2,4,9,
   4,7,9,2,5,6,1,3,8,
   1,2,3,4,6,8,7,9,5,
   5,4,7,1,2,9,3,8,6,
   6,9,8,5,7,3,4,1,2,
   2,3,1,6,8,5,9,7,4,
   7,6,4,9,3,2,8,5,1,
   9,8,5,7,4,1,6,2,3]

/-- A board whose first cell A1 is empty with no candidate (its row holds
1..8 and B1 holds 9): the scan dead-ends at A1. -/
def Bd : Board :=
  [0,1,2,3,4,5,6,7,8,
   9,0,0,0,0,0,0,0,0,
   0,0,0,0,0,0,0,0,0,
   0,0,0,0,0,0,0,0,0,
   0,0,0,0,0,0,0,0,0,
   0,0,0,0,0,0,0,0,0,
   0,0,0,0,0,0,0,0,0,
   0,0,0,0,0,0,0,0,0,
   0,0,0,0,0,0,0,0,0]

/-- G with A1 blanked: the scan finds the forced single candidate 3 at A1. -/
def Bf : Board :=
  [0,1,2,8,9,4,5,6,7,
   8,5,6,3,1,7,2,4,9,
   4,7,9,2,5,6,1,3,8,
   1,2,3,4,6,8,7,9,5,
   5,4,7,1,2,9,3,8,6,
   6,9,8,5,7,3,4,1,2,
   2,3,1,6,8,5,9,7,4,
   7,6,4,9,3,2,8,5,1,
   9,8,5,7,4,1,6,2,3]

/-- The invariant carried through the search: an 81-cell board whose filled
cells satisfy the neighbour constraint and whose values lie in 0..9. -/
def Inv (b : Board) : Prop :=
  b.length = 81 ∧ Valid b ∧ ∀ p : Pos, bget b p ≤ 9

/-- The cells of row r in column order. -/
def rowCells (r : Fin 9) : List Pos := (List.finRange 9).map fun c => (r, c)

/-- The cells of column c in row order. -/
def colCells (c : Fin 9) : List Pos := (List.finRange 9).map fun r => (r, c)

/-- The cells of box k in row-major order. -/
def boxCells (k : Fin 9) : List Pos := positions.filter fun p => boxIdx p == (k : ℕ)

/-- The condition at which the scan of create_children stops: an empty cell
whose candidate set has no element or exactly one. -/
def scanCrit (b : Board) (q : Pos) : Bool :=
  bget b q == 0 && ((candList b q).length == 0 || (candList b q).length == 1)

/-- The cell A1, the branching cell of the board B0 below. -/
def m0 : Pos := (0, 0)

/-- An assignment covering all 81 cells with A1 = A2 = 5 and 0 elsewhere:
the rejection example of the spec. -/
def a5 : List (Pos × ℕ) :=
  positions.map fun p => (p, if posIdx p ≤ 1 then 5 else 0)

/-- An assignment covering all 81 cells with the out-of-range value 17 at
A1 and 0 elsewhere. -/
def a17 : List (Pos × ℕ) :=
  positions.map fun p => (p, if p = m0 then 17 else 0)

/-- The board the constructor builds from a17. -/
def b17 : Board := positions.map fun p => (lookupA a17 p).getD 0

instance : DecidableEq (Except InvalidBoard Board) := fun x y =>
  match x, y with
  | .ok a, .ok b =>
    match decEq a b with
    | isTrue h => isTrue (by rw [h])
    | isFalse h => isFalse fun hc => h (by injection hc)
  | .error a, .error b =>
    match decEq a b with
    | isTrue h => isTrue (by rw [h])
    | isFalse h => isFalse fun hc => h (by injection hc)
  | .ok _, .error _ => isFalse fun hc => Except.noConfusion hc
  | .error _, .ok _ => isFalse fun hc => Except.noConfusion hc

/-! Basic facts about the grid topology. -/

theorem mem_positions (p : Pos) : p ∈ positions := by
  rcases p with ⟨r, c⟩
  simp only [positions, List.mem_flatMap, List.mem_map]
  exact ⟨r, List.mem_finRange r, c, List.mem_finRange c, rfl⟩

theorem positions_nodup : positions.Nodup := by decide

theorem positions_length : positions.length = 81 := by decide

theorem posIdx_lt (p : Pos) : posIdx p < 81 := by
  rcases p with ⟨r, c⟩
  have hr := r.isLt
  have hc := c.isLt
  simp only [posIdx]
  omega

theorem posIdx_inj {p q : Pos} (h : posIdx p = posIdx q) : p = q := by
  revert h
  revert p q
  decide

theorem positions_sorted : positions.Pairwise fun p q => posIdx p < posIdx q := by
  decide

theorem isNeighbour_symm (p q : Pos) : isNeighbour p q = isNeighbour q p := by
  revert p q
  decide

theorem isNeighbour_ne {p q : Pos} (h : isNeighbour p q = true) : q ≠ p := by
  simp only [isNeighbour, Bool.and_eq_true, bne_iff_ne, ne_eq] at h
  exact h.1

theorem mem_neighbours {p q : Pos} : q ∈ neighbours p ↔ isNeighbour p q = true := by
  simp [neighbours, List.mem_filter, mem_positions]

/-! Reading and writing single cells. -/

theorem bset_length (b : Board) (p : Pos) (v : ℕ) :
    (bset b p v).length = b.length := by
  simp [bset]

theorem bget_bset_ne (b : Board) (p : Pos) (v : ℕ) {q : Pos} (h : q ≠ p) :
    bget (bset b p v) q = bget b q := by
  have hne : posIdx q ≠ posIdx p := fun hc => h (posIdx_inj hc)
  simp only [bget, bset, List.getD]
  rw [List.get?_set_ne _ _ (by omega)]

theorem bget_bset_self (b : Board) (p : Pos) (v : ℕ) (hl : b.length = 81) :
    bget (bset b p v) p = v := by
  simp only [bget, bset, List.getD]
  rw [List.get?_set_eq_of_lt]
  · rfl
  · rw [hl]; exact posIdx_lt p

/-! Counting cells that satisfy a predicate, when the predicate changes at
exactly one position. -/

theorem countP_flip_one {l : List Pos} (hN : l.Nodup) {p : Pos} (hp : p ∈ l)
    {f g : Pos → Bool} (hfg : ∀ q, q ≠ p → f q = g q)
    (hf : f p = false) (hg : g p = true) :
    l.countP g = l.countP f + 1 := by
  induction l with
  | nil => cases hp
  | cons a l ih =>
    rcases List.nodup_cons.mp hN with ⟨ha, hN'⟩
    by_cases hap : a = p
    · subst hap
      have : l.countP g = l.countP f := by
        apply List.countP_congr
        intro x hx
        rw [hfg x (fun hxp => ha (hxp ▸ hx))]
      simp [List.countP_cons, hf, hg, this]
    · have hpl : p ∈ l := by
        rcases List.mem_cons.mp hp with h | h
        · exact absurd h.symm hap
        · exact h
      have := ih hN' hpl
      simp only [List.countP_cons, hfg a hap, this]
      omega

theorem filledCount_bset {b : Board} {p : Pos} {v : ℕ}
    (hl : b.length = 81) (hp : bget b p = 0) (hv : v ≠ 0) :
    filledCount (bset b p v) = filledCount b + 1 := by
  unfold filledCount
  rw [← List.countP_eq_length_filter, ← List.countP_eq_length_filter]
  exact countP_flip_one positions_nodup (mem_positions p)
    (fun q hq => by rw [bget_bset_ne b p v hq])
    (by simp [hp]) (by simp [bget_bset_self b p v hl, hv])

theorem emptyCount_bset {b : Board} {p : Pos} {v : ℕ}
    (hl : b.length = 81) (hp : bget b p = 0) (hv : v ≠ 0) :
    emptyCount b = emptyCount (bset b p v) + 1 := by
  unfold emptyCount
  rw [← List.countP_eq_length_filter, ← List.countP_eq_length_filter]
  exact countP_flip_one positions_nodup (mem_positions p)
    (fun q hq => by rw [bget_bset_ne b p v hq])
    (by simp [bget_bset_self b p v hl, hv]) (by simp [hp])

theorem emptyCount_le_81 (b : Board) : emptyCount b ≤ 81 := by
  calc emptyCount b ≤ positions.length := List.length_filter_le _ _
    _ = 81 := positions_length

/-! Facts about candidate lists. -/

theorem mem_candList {b : Board} {p : Pos} {v : ℕ} :
    v ∈ candList b p ↔ 1 ≤ v ∧ v ≤ 9 ∧ ∀ q : Pos, isNeighbour p q = true → bget b q ≠ v := by
  have hmemmap : v ∈ (neighbours p).map (bget b) ↔ ∃ q : Pos, isNeighbour p q = true ∧ bget b q = v := by
    simp only [List.mem_map]
    exact ⟨fun ⟨q, hq, he⟩ => ⟨q, mem_neighbours.mp hq, he⟩,
           fun ⟨q, hq, he⟩ => ⟨q, mem_neighbours.mpr hq, he⟩⟩
  simp only [candList, List.mem_filter, List.mem_range'_1, Bool.not_eq_eq_eq_not,
    Bool.not_true, ← Bool.not_eq_true, List.elem_iff, hmemmap]
  constructor
  · rintro ⟨⟨hv1, hv2⟩, hno⟩
    exact ⟨hv1, by omega, fun q hq hcontra => hno ⟨q, hq, hcontra⟩⟩
  · rintro ⟨hv1, hv2, hno⟩
    exact ⟨⟨hv1, by omega⟩, fun ⟨q, hq, he⟩ => hno q hq he⟩

theorem candList_pos {b : Board} {p : Pos} {v : ℕ} (h : v ∈ candList b p) : v ≠ 0 := by
  have := (mem_candList.mp h).1
  omega

theorem candList_le9 {b : Board} {p : Pos} {v : ℕ} (h : v ∈ candList b p) : v ≤ 9 :=
  (mem_candList.mp h).2.1

theorem candList_sorted (b : Board) (p : Pos) : (candList b p).Pairwise (· < ·) := by
  have h9 : (List.range' 1 9).Pairwise (· < · : ℕ → ℕ → Prop) := by decide
  exact h9.sublist (List.filter_sublist _)

theorem candList_nodup (b : Board) (p : Pos) : (candList b p).Nodup :=
  (candList_sorted b p).imp Nat.ne_of_lt

/-! Facts about the row-major scan. -/

theorem scanB_dead {b : Board} {l : List Pos} (h : scanB b l = .dead) :
    ∃ p ∈ l, bget b p = 0 ∧ candList b p = [] := by
  induction l with
  | nil => simp [scanB] at h
  | cons p rest ih =>
    rw [scanB] at h
    by_cases hf : bget b p ≠ 0
    · rw [if_pos (by simpa using hf)] at h
      rcases ih h with ⟨q, hq, h0, hc⟩
      exact ⟨q, List.mem_cons_of_mem _ hq, h0, hc⟩
    · push_neg at hf
      rw [if_neg (by simpa using hf)] at h
      rcases hcl : candList b p with _ | ⟨v, _ | ⟨w, tl⟩⟩
      · exact ⟨p, List.mem_cons_self _ _, hf, hcl⟩
      · rw [hcl] at h; cases h
      · rw [hcl] at h
        rcases ih h with ⟨q, hq, h0, hc⟩
        exact ⟨q, List.mem_cons_of_mem _ hq, h0, hc⟩

theorem scanB_force {b : Board} {l : List Pos} {p : Pos} {v : ℕ}
    (h : scanB b l = .force p v) :
    p ∈ l ∧ bget b p = 0 ∧ candList b p = [v] := by
  induction l with
  | nil => simp [scanB] at h
  | cons q rest ih =>
    rw [scanB] at h
    by_cases hf : bget b q ≠ 0
    · rw [if_pos (by simpa using hf)] at h
      rcases ih h with ⟨hm, h0, hc⟩
      exact ⟨List.mem_cons_of_mem _ hm, h0, hc⟩
    · push_neg at hf
      rw [if_neg (by simpa using hf)] at h
      rcases hcl : candList b q with _ | ⟨w, _ | ⟨w', tl⟩⟩
      · rw [hcl] at h; cases h
      · rw [hcl] at h
        cases h
        exact ⟨List.mem_cons_self _ _, hf, hcl⟩
      · rw [hcl] at h
        rcases ih h with ⟨hm, h0, hc⟩
        exact ⟨List.mem_cons_of_mem _ hm, h0, hc⟩

theorem scanB_complete {b : Board} {l : List Pos} (h : scanB b l = .complete) :
    ∀ p ∈ l, bget b p = 0 → 2 ≤ (candList b p).length := by
  induction l with
  | nil => intro p hp; cases hp
  | cons q rest ih =>
    rw [scanB] at h
    intro p hp h0
    by_cases hf : bget b q ≠ 0
    · rw [if_pos (by simpa using hf)] at h
      rcases List.mem_cons.mp hp with rfl | hm
      · exact absurd h0 hf
      · exact ih h p hm h0
    · push_neg at hf
      rw [if_neg (by simpa using hf)] at h
      rcases hcl : candList b q with _ | ⟨w, _ | ⟨w', tl⟩⟩ <;> rw [hcl] at h
      · cases h
      · cases h
      · rcases List.mem_cons.mp hp with rfl | hm
        · rw [hcl]; simp
        · exact ih h p hm h0

/-! The pop-order model permutes its input: every key of the list lands in
some free slot of the 8-slot table as long as at most four keys are
inserted, because the probe sequence visits all eight slots. -/

theorem probeList_covers (v : ℕ) : ∀ j : ℕ, j < 8 → j ∈ probeList v := by
  have h8 : v % 8 < 8 := Nat.mod_lt _ (by norm_num)
  have key : ∀ r : Fin 8, ∀ j : Fin 8, (j : ℕ) ∈ probeIter 8 (r : ℕ) := by decide
  intro j hj
  simpa [probeList] using key ⟨v % 8, h8⟩ ⟨j, hj⟩

theorem probeList_lt (v : ℕ) : ∀ j ∈ probeList v, j < 8 := by
  have h8 : v % 8 < 8 := Nat.mod_lt _ (by norm_num)
  have key : ∀ r : Fin 8, ∀ j ∈ probeIter 8 (r : ℕ), j < 8 := by decide
  intro j hj
  exact key ⟨v % 8, h8⟩ j (by simpa [probeList] using hj)

theorem tableElems_set {t : Table} {i : ℕ} {v : ℕ}
    (hi : i < t.length) (hfree : t.getD i (some 0) = none) :
    List.Perm (tableElems (t.set i (some v))) (v :: tableElems t) := by
  induction t generalizing i with
  | nil => simp at hi
  | cons a t ih =>
    cases i with
    | zero =>
      have : a = none := by simpa [List.getD] using hfree
      subst this
      simp [tableElems]
    | succ i =>
      have hi' : i < t.length := by simpa using hi
      have hfree' : t.getD i (some 0) = none := by simpa [List.getD] using hfree
      have hperm := ih hi' hfree'
      cases a with
      | none => simpa [tableElems] using hperm
      | some w =>
        have e1 : tableElems (some w :: t.set i (some v)) = w :: tableElems (t.set i (some v)) := by
          simp [tableElems]
        have e2 : tableElems (some w :: t) = w :: tableElems t := by
          simp [tableElems]
        rw [List.set_cons_succ, e1, e2]
        exact (hperm.cons w).trans (List.Perm.swap v w _)

theorem tableElems_full {t : Table}
    (h : ∀ i : ℕ, i < t.length → t.getD i (some 0) ≠ none) :
    (tableElems t).length = t.length := by
  induction t with
  | nil => rfl
  | cons a t ih =>
    have h0 : a ≠ none := by simpa [List.getD] using h 0 (by simp)
    rcases a with _ | w
    · exact absurd rfl h0
    · have ht : ∀ i : ℕ, i < t.length → t.getD i (some 0) ≠ none := by
        intro i hi
        simpa [List.getD] using h (i + 1) (by simpa using hi)
      have e : tableElems (some w :: t) = w :: tableElems t := by simp [tableElems]
      rw [e, List.length_cons, List.length_cons, ih ht]

theorem tInsert_perm {t : Table} {v : ℕ} (hlen : t.length = 8)
    (hroom : (tableElems t).length < 8) :
    List.Perm (tableElems (tInsert t v)) (v :: tableElems t) ∧
      (tInsert t v).length = 8 := by
  unfold tInsert
  rcases hfind : (probeList v).find? (fun i => t.getD i (some 0) == none) with _ | i
  · exfalso
    have hall : ∀ i : ℕ, i < t.length → t.getD i (some 0) ≠ none := by
      intro i hi hnone
      have hmem : i ∈ probeList v := probeList_covers v i (hlen ▸ hi)
      have hne := List.find?_eq_none.mp hfind i hmem
      rw [hnone] at hne
      simp at hne
    have := tableElems_full hall
    omega
  · have hprop := List.find?_some hfind
    have hfree : t.getD i (some 0) = none := by simpa using hprop
    have hmem : i ∈ probeList v := List.mem_of_find?_eq_some hfind
    have hi8 : i < 8 := probeList_lt v i hmem
    exact ⟨tableElems_set (by omega) hfree, by simpa using hlen⟩

theorem foldl_tInsert_perm (l : List ℕ) :
    ∀ t : Table, t.length = 8 → (tableElems t).length + l.length ≤ 8 →
      List.Perm (tableElems (l.foldl tInsert t)) (l ++ tableElems t) := by
  induction l with
  | nil => intro t _ _; simp
  | cons v l ih =>
    intro t hlen hroom
    simp only [List.foldl_cons]
    have hroom' : (tableElems t).length < 8 := by
      simp only [List.length_cons] at hroom
      omega
    rcases tInsert_perm (v := v) hlen hroom' with ⟨hperm, hlen'⟩
    have hlperm := hperm.length_eq
    simp only [List.length_cons] at hlperm hroom
    have hroomn : (tableElems (tInsert t v)).length + l.length ≤ 8 := by omega
    have h1 := ih (tInsert t v) hlen' hroomn
    have h2 : List.Perm (l ++ tableElems (tInsert t v)) (l ++ (v :: tableElems t)) :=
      List.Perm.append_left l hperm
    have h3 : List.Perm (l ++ (v :: tableElems t)) (v :: (l ++ tableElems t)) :=
      List.perm_middle
    exact h1.trans (h2.trans h3)

theorem popOrder_perm (l : List ℕ) : List.Perm (popOrder l) l := by
  unfold popOrder
  split
  · exact List.Perm.refl l
  · rename_i hlt
    have hle : l.length ≤ 4 := by omega
    have h0 : tableElems (List.replicate 8 (none : Option ℕ)) = [] := by decide
    have := foldl_tInsert_perm l (List.replicate 8 none) (by simp)
      (by rw [h0]; simp; omega)
    unfold buildTable
    rw [h0] at this
    simpa using this

theorem popOrder_length (l : List ℕ) : (popOrder l).length = l.length :=
  (popOrder_perm l).length_eq

theorem mem_popOrder {l : List ℕ} {v : ℕ} : v ∈ popOrder l ↔ v ∈ l :=
  (popOrder_perm l).mem_iff

/-! The min over pos_options: Python's min keeps the first strict minimum,
so the selected key is the first element with minimal candidate count. -/

theorem foldl_minStep_some (b : Board) :
    ∀ (l : List Pos) (a : Pos), ∃ m, l.foldl (minStep b) (some a) = some m := by
  intro l
  induction l with
  | nil => intro a; exact ⟨a, rfl⟩
  | cons p l ih =>
    intro a
    simp only [List.foldl_cons, minStep]
    split
    · exact ih p
    · exact ih a

theorem foldl_minStep_spec (b : Board) :
    ∀ (l : List Pos) (a m : Pos), l.foldl (minStep b) (some a) = some m →
      ∃ l1 l2, a :: l = l1 ++ m :: l2 ∧
        (∀ x ∈ l1, (candList b m).length < (candList b x).length) ∧
        (∀ x ∈ l2, (candList b m).length ≤ (candList b x).length) := by
  intro l
  induction l with
  | nil =>
    intro a m h
    simp only [List.foldl_nil, Option.some.injEq] at h
    exact ⟨[], [], by simp [h], by simp, by simp⟩
  | cons p l ih =>
    intro a m h
    simp only [List.foldl_cons, minStep] at h
    by_cases hcmp : (candList b p).length < (candList b a).length
    · rw [if_pos hcmp] at h
      rcases ih p m h with ⟨l1, l2, hsplit, hlt, hle⟩
      have hmp : (candList b m).length ≤ (candList b p).length := by
        have hp : p ∈ p :: l := List.mem_cons_self _ _
        rw [hsplit] at hp
        rcases List.mem_append.mp hp with h1 | h2
        · exact le_of_lt (hlt p h1)
        · rcases List.mem_cons.mp h2 with rfl | h2'
          · exact le_refl _
          · exact hle p h2'
      refine ⟨a :: l1, l2, by rw [List.cons_append, hsplit], ?_, hle⟩
      intro x hx
      rcases List.mem_cons.mp hx with rfl | hx'
      · omega
      · exact hlt x hx'
    · rw [if_neg hcmp] at h
      rcases ih a m h with ⟨l1, l2, hsplit, hlt, hle⟩
      push_neg at hcmp
      rcases l1 with _ | ⟨a', l1'⟩
      · simp only [List.nil_append, List.cons.injEq] at hsplit
        obtain ⟨rfl, rfl⟩ := hsplit
        refine ⟨[], p :: l, rfl, by simp, ?_⟩
        intro x hx
        rcases List.mem_cons.mp hx with rfl | hx'
        · exact hcmp
        · exact hle x hx'
      · simp only [List.cons_append, List.cons.injEq] at hsplit
        obtain ⟨rfl, hsplit'⟩ := hsplit
        have hma : (candList b m).length < (candList b a).length :=
          hlt a (List.mem_cons_self _ _)
        refine ⟨a :: p :: l1', l2, by rw [hsplit']; rfl, ?_, hle⟩
        intro x hx
        rcases List.mem_cons.mp hx with rfl | hx'
        · exact hma
        · rcases List.mem_cons.mp hx' with rfl | hx''
          · omega
          · exact hlt x (List.mem_cons_of_mem _ hx'')

theorem mem_posOptions {b : Board} {p : Pos} :
    p ∈ posOptions b ↔ bget b p = 0 ∧ candList b p ≠ [] := by
  simp only [posOptions, List.mem_filter, mem_positions, true_and, Bool.and_eq_true,
    beq_iff_eq, Bool.not_eq_eq_eq_not, Bool.not_false, List.isEmpty_iff]
  constructor
  · rintro ⟨h0, he⟩
    exact ⟨h0, by simpa using he⟩
  · rintro ⟨h0, he⟩
    exact ⟨h0, by simpa [List.isEmpty_iff] using he⟩

theorem minPos_spec {b : Board} {m : Pos} (h : minPos? b = some m) :
    ∃ l1 l2, posOptions b = l1 ++ m :: l2 ∧
      (∀ x ∈ l1, (candList b m).length < (candList b x).length) ∧
      (∀ x ∈ l2, (candList b m).length ≤ (candList b x).length) := by
  unfold minPos? at h
  rcases hpo : posOptions b with _ | ⟨a, l⟩
  · rw [hpo] at h; cases h
  · rw [hpo] at h
    simp only [List.foldl_cons] at h
    have hstep : minStep b none a = some a := rfl
    rw [hstep] at h
    rcases foldl_minStep_spec b l a m h with ⟨l1, l2, hsplit, hlt, hle⟩
    exact ⟨l1, l2, by rw [hsplit], hlt, hle⟩

theorem minPos_mem {b : Board} {m : Pos} (h : minPos? b = some m) :
    bget b m = 0 ∧ candList b m ≠ [] := by
  rcases minPos_spec h with ⟨l1, l2, hsplit, -, -⟩
  have : m ∈ posOptions b := by
    rw [hsplit]
    exact List.mem_append.mpr (Or.inr (List.mem_cons_self _ _))
  exact mem_posOptions.mp this

theorem minPos_some_of_nonempty {b : Board} (h : posOptions b ≠ []) :
    ∃ m, minPos? b = some m := by
  unfold minPos?
  rcases hpo : posOptions b with _ | ⟨a, l⟩
  · exact absurd hpo h
  · simp only [List.foldl_cons]
    have hstep : minStep b none a = some a := rfl
    rw [hstep]
    exact foldl_minStep_some b l a

/-! Inversion of the outcome classification. -/

theorem outcome_deadEnd_inv {b : Board} (h : outcome b = .deadEnd) :
    board_is_solved b = false ∧ scanB b positions = .dead := by
  unfold outcome at h
  split at h
  · cases h
  · rename_i hs
    split at h
    · rename_i hscan
      exact ⟨by simpa using hs, hscan⟩
    · cases h
    · split at h <;> cases h

theorem outcome_forced_inv {b : Board} {c : Board} (h : outcome b = .forced c) :
    board_is_solved b = false ∧ ∃ p v, scanB b positions = .force p v ∧ c = bset b p v := by
  unfold outcome at h
  split at h
  · cases h
  · rename_i hs
    split at h
    · cases h
    · rename_i p v hscan
      cases h
      exact ⟨by simpa using hs, p, v, hscan, rfl⟩
    · split at h <;> cases h

theorem outcome_branch_inv {b : Board} {cs : List Board} (h : outcome b = .branch cs) :
    board_is_solved b = false ∧ scanB b positions = .complete ∧
      ∃ m, minPos? b = some m ∧ cs = (popOrder (candList b m)).map (bset b m) := by
  unfold outcome at h
  split at h
  · cases h
  · rename_i hs
    split at h
    · cases h
    · cases h
    · rename_i hscan
      split at h
      · cases h
      · rename_i m hm
        cases h
        exact ⟨by simpa using hs, hscan, m, hm, rfl⟩

/-- Every non-sentinel element of the children list fills one empty cell of
the parent with one of that cell's candidate values. -/
theorem create_children_mem {b c : Board} (h : some c ∈ create_children b) :
    ∃ p v, bget b p = 0 ∧ v ∈ candList b p ∧ c = bset b p v := by
  unfold create_children at h
  rcases hout : outcome b with _ | _ | c' | cs <;> rw [hout] at h
  · cases h
  · simp at h
  · simp only [List.mem_singleton, Option.some.injEq] at h
    subst h
    rcases outcome_forced_inv hout with ⟨-, p, v, hscan, rfl⟩
    rcases scanB_force hscan with ⟨-, h0, hc⟩
    exact ⟨p, v, h0, by rw [hc]; exact List.mem_singleton_self v, rfl⟩
  · rcases outcome_branch_inv hout with ⟨-, -, m, hm, rfl⟩
    simp only [List.map_map, List.mem_map, Function.comp_apply, Option.some.injEq] at h
    rcases h with ⟨v, hv, rfl⟩
    exact ⟨m, v, (minPos_mem hm).1, mem_popOrder.mp hv, rfl⟩

/-! Preservation of the board invariant along children. -/

theorem bget_bset (b : Board) (hl : b.length = 81) (p : Pos) (v : ℕ) (q : Pos) :
    bget (bset b p v) q = if q = p then v else bget b q := by
  by_cases h : q = p
  · subst h
    rw [if_pos rfl, bget_bset_self b q v hl]
  · rw [if_neg h, bget_bset_ne b p v h]

theorem valid_child {b : Board} (hl : b.length = 81) (hv : Valid b) {p : Pos} {v : ℕ}
    (hc : v ∈ candList b p) : Valid (bset b p v) := by
  rcases mem_candList.mp hc with ⟨-, -, hno⟩
  intro pp hpp0 qq hnb
  rw [bget_bset b hl p v pp] at hpp0
  rw [bget_bset b hl p v qq, bget_bset b hl p v pp]
  by_cases hpp : pp = p
  · rw [if_pos hpp]
    have hqp : qq ≠ p := by
      have hne := isNeighbour_ne hnb
      rw [hpp] at hne
      exact hne
    rw [if_neg hqp]
    rw [hpp] at hnb
    exact hno qq hnb
  · rw [if_neg hpp] at hpp0 ⊢
    by_cases hqp : qq = p
    · rw [if_pos hqp]
      rw [hqp] at hnb
      have hsym : isNeighbour p pp = true := by rw [isNeighbour_symm]; exact hnb
      intro hcontra
      exact hno pp hsym hcontra.symm
    · rw [if_neg hqp]
      exact hv pp hpp0 qq hnb

theorem inv_child {b c : Board} (hi : Inv b) (h : some c ∈ create_children b) :
    Inv c ∧ emptyCount b = emptyCount c + 1 := by
  rcases hi with ⟨hl, hv, h9⟩
  rcases create_children_mem h with ⟨p, v, h0, hc, rfl⟩
  have hvne : v ≠ 0 := candList_pos hc
  refine ⟨⟨by rw [bset_length, hl], valid_child hl hv hc, ?_⟩, emptyCount_bset hl h0 hvne⟩
  intro q
  by_cases hqp : q = p
  · subst hqp
    rw [bget_bset_self b q v hl]
    exact candList_le9 hc
  · rw [bget_bset_ne b p v hqp]
    exact h9 q

theorem solved_emptyCount_pos {b : Board} (h : board_is_solved b = false) :
    1 ≤ emptyCount b := by
  unfold board_is_solved at h
  rcases List.all_eq_false.mp h with ⟨p, hp, hne⟩
  have h0 : bget b p = 0 := by simpa using hne
  unfold emptyCount
  have : p ∈ positions.filter fun q => bget b q == 0 :=
    List.mem_filter.mpr ⟨hp, by simpa using h0⟩
  calc 1 ≤ (positions.filter fun q => bget b q == 0).length :=
        List.length_pos.mpr (List.ne_nil_of_mem this)
    _ = _ := rfl

/-! The child loop of solve_board. -/

theorem tryChildren_some {f : Board → Option Board} {l : List (Option Board)} {s : Board}
    (h : tryChildren f l = some s) : ∃ c, some c ∈ l ∧ f c = some s := by
  induction l with
  | nil => cases h
  | cons o l ih =>
    rcases o with _ | c
    · cases h
    · rw [tryChildren] at h
      rcases hfc : f c with _ | s'
      · rw [hfc] at h
        rcases ih h with ⟨c', hc', hfc'⟩
        exact ⟨c', List.mem_cons_of_mem _ hc', hfc'⟩
      · rw [hfc] at h
        cases h
        exact ⟨c, List.mem_cons_self _ _, hfc⟩

theorem tryChildren_congr {f g : Board → Option Board} {l : List (Option Board)}
    (h : ∀ c, some c ∈ l → f c = g c) : tryChildren f l = tryChildren g l := by
  induction l with
  | nil => rfl
  | cons o l ih =>
    rcases o with _ | c
    · rfl
    · rw [tryChildren, tryChildren, h c (List.mem_cons_self _ _)]
      rcases g c with _ | s
      · exact ih fun c' hc' => h c' (List.mem_cons_of_mem _ hc')
      · rfl

theorem solveFuel_some_inv :
    ∀ (n : ℕ) (b s : Board), Inv b → solveFuel n b = some s →
      Inv s ∧ board_is_solved s = true := by
  intro n
  induction n with
  | zero => intro b s _ h; cases h
  | succ n ih =>
    intro b s hi h
    rw [solveFuel] at h
    by_cases hs : board_is_solved b
    · rw [if_pos hs] at h
      cases h
      exact ⟨hi, hs⟩
    · rw [if_neg hs] at h
      rcases tryChildren_some h with ⟨c, hc, hfc⟩
      exact ih c s (inv_child hi hc).1 hfc

theorem solveFuel_fuel_irrelevant :
    ∀ (e : ℕ) (b : Board), Inv b → emptyCount b = e →
      ∀ n : ℕ, e < n → solveFuel n b = solveFuel (e + 1) b := by
  intro e
  induction e using Nat.strong_induction_on with
  | _ e ih =>
    intro b hi he n hn
    rcases n with _ | n'
    · omega
    · rw [solveFuel, solveFuel]
      by_cases hs : board_is_solved b
      · rw [if_pos hs, if_pos hs]
      · rw [if_neg hs, if_neg hs]
        apply tryChildren_congr
        intro c hc
        rcases inv_child hi hc with ⟨hic, hcount⟩
        have he1 : 1 ≤ e := he ▸ solved_emptyCount_pos (by simpa using hs)
        have hce : emptyCount c = e - 1 := by omega
        have h1 := ih (e - 1) (by omega) c hic hce n' (by omega)
        have h2 := ih (e - 1) (by omega) c hic hce e (by omega)
        rw [h1, h2]

theorem solve_board_eq_fuel {b : Board} (hi : Inv b) {n : ℕ} (hn : emptyCount b < n) :
    solveFuel n b = solve_board b := by
  unfold solve_board
  exact solveFuel_fuel_irrelevant (emptyCount b) b hi rfl n hn

/-! A solved valid board restricted to any 9-cell mutually-neighbouring
group carries each value 1..9 exactly once. -/

theorem solved_nonzero {b : Board} (h : board_is_solved b = true) (p : Pos) :
    bget b p ≠ 0 := by
  unfold board_is_solved at h
  have := List.all_eq_true.mp h p (mem_positions p)
  simpa using this

theorem group_exactly_once {b : Board} (hv : Valid b) (h9 : ∀ p : Pos, bget b p ≤ 9)
    (hs : board_is_solved b = true) {L : List Pos} (hN : L.Nodup) (hL : L.length = 9)
    (hnb : ∀ p ∈ L, ∀ q ∈ L, p ≠ q → isNeighbour p q = true) :
    ∀ v : ℕ, 1 ≤ v → v ≤ 9 → (L.filter fun p => bget b p == v).length = 1 := by
  intro v hv1 hv9
  have hpair : L.Pairwise fun p q => bget b p ≠ bget b q := by
    refine List.Pairwise.imp_of_mem ?_ hN
    intro p q hp hq hne heq
    exact hv p (solved_nonzero hs p) q (hnb p hp q hq hne) heq.symm
  have hVnodup : (L.map (bget b)).Nodup := List.pairwise_map.mpr hpair
  have hsub : (L.map (bget b)).toFinset ⊆ Finset.Icc 1 9 := by
    intro x hx
    rcases List.mem_map.mp (List.mem_toFinset.mp hx) with ⟨p, hp, rfl⟩
    have h0 := solved_nonzero hs p
    have h9p := h9 p
    rw [Finset.mem_Icc]
    omega
  have hcard : (L.map (bget b)).toFinset.card = 9 := by
    rw [List.toFinset_card_of_nodup hVnodup, List.length_map, hL]
  have hfeq : (L.map (bget b)).toFinset = Finset.Icc 1 9 := by
    apply Finset.eq_of_subset_of_card_le hsub
    rw [hcard]
    simp
  have hvmem : v ∈ L.map (bget b) := by
    rw [← List.mem_toFinset, hfeq, Finset.mem_Icc]
    omega
  have hge : 0 < (L.map (bget b)).countP (· == v) :=
    List.countP_pos_iff.mpr ⟨v, hvmem, by simp⟩
  have hle : (L.map (bget b)).count v ≤ 1 := List.nodup_iff_count_le_one.mp hVnodup v
  have hcnt : (L.map (bget b)).count v = (L.map (bget b)).countP (· == v) := rfl
  have htrans : (L.map (bget b)).countP (· == v) =
      (L.filter fun p => bget b p == v).length := by
    rw [List.countP_map, ← List.countP_eq_length_filter]
    rfl
  omega

theorem rowCells_nodup : ∀ r : Fin 9, (rowCells r).Nodup := by decide

theorem rowCells_length : ∀ r : Fin 9, (rowCells r).length = 9 := by decide

theorem rowCells_nb : ∀ r : Fin 9, ∀ p ∈ rowCells r, ∀ q ∈ rowCells r,
    p ≠ q → isNeighbour p q = true := by decide

theorem colCells_nodup : ∀ c : Fin 9, (colCells c).Nodup := by decide

theorem colCells_length : ∀ c : Fin 9, (colCells c).length = 9 := by decide

theorem colCells_nb : ∀ c : Fin 9, ∀ p ∈ colCells c, ∀ q ∈ colCells c,
    p ≠ q → isNeighbour p q = true := by decide

theorem boxCells_nodup : ∀ k : Fin 9, (boxCells k).Nodup := by decide

theorem boxCells_length : ∀ k : Fin 9, (boxCells k).length = 9 := by decide

theorem boxCells_nb : ∀ k : Fin 9, ∀ p ∈ boxCells k, ∀ q ∈ boxCells k,
    p ≠ q → isNeighbour p q = true := by decide

theorem rowVCount_eq (b : Board) (r : Fin 9) (v : ℕ) :
    rowVCount b r v = ((rowCells r).filter fun p => bget b p == v).length := by
  unfold rowVCount rowCells
  rw [List.map_filter]
  rw [List.length_map]
  rfl

theorem colVCount_eq (b : Board) (c : Fin 9) (v : ℕ) :
    colVCount b c v = ((colCells c).filter fun p => bget b p == v).length := by
  unfold colVCount colCells
  rw [List.map_filter]
  rw [List.length_map]
  rfl

theorem boxVCount_eq (b : Board) (k : Fin 9) (v : ℕ) :
    boxVCount b (k : ℕ) v = ((boxCells k).filter fun p => bget b p == v).length := by
  unfold boxVCount boxCells
  rw [List.filter_filter]
  apply congrArg List.length
  apply List.filter_congr
  intro p hp
  rw [Bool.and_comm]

/-- Claim C1: every board the solver returns as a solution carries each of
the values 1..9 exactly once in each of the 9 rows, 9 columns and 9 boxes.
Stated for inputs of the core type: 81 cells, values 0..9, constructor
consistency check passed. -/
theorem solution_rows_cols_boxes_exactly_once (b s : Board)
    (hl : b.length = 81) (hv : Valid b) (h9 : ∀ p : Pos, bget b p ≤ 9)
    (hs : solve_board b = some s) :
    (∀ r : Fin 9, ∀ v : ℕ, 1 ≤ v → v ≤ 9 → rowVCount s r v = 1) ∧
    (∀ c : Fin 9, ∀ v : ℕ, 1 ≤ v → v ≤ 9 → colVCount s c v = 1) ∧
    (∀ k : Fin 9, ∀ v : ℕ, 1 ≤ v → v ≤ 9 → boxVCount s (k : ℕ) v = 1) := by
  have hinv : Inv b := ⟨hl, hv, h9⟩
  rcases solveFuel_some_inv (emptyCount b + 1) b s hinv hs with ⟨⟨-, hvs, h9s⟩, hsolved⟩
  refine ⟨?_, ?_, ?_⟩
  · intro r v h1 h2
    rw [rowVCount_eq]
    exact group_exactly_once hvs h9s hsolved (rowCells_nodup r) (rowCells_length r)
      (rowCells_nb r) v h1 h2
  · intro c v h1 h2
    rw [colVCount_eq]
    exact group_exactly_once hvs h9s hsolved (colCells_nodup c) (colCells_length c)
      (colCells_nb c) v h1 h2
  · intro k v h1 h2
    rw [boxVCount_eq]
    exact group_exactly_once hvs h9s hsolved (boxCells_nodup k) (boxCells_length k)
      (boxCells_nb k) v h1 h2

/-- Witness for C1 at the concrete solved board G: solving returns G itself
and row A carries the value 5 exactly once. -/
theorem solution_rows_cols_boxes_exactly_once_witness : rowVCount G 0 5 = 1 :=
  (solution_rows_cols_boxes_exactly_once G G (by decide) (by decide) (by decide)
    (by decide)).1 0 5 (by decide) (by decide)

/-- Claim C7: the search terminates.  The empty-cell count never exceeds
81, every child of a board has exactly one fewer empty cell, and any fuel
beyond the empty-cell count gives the same run as solve_board, so the
recursion depth is bounded by the number of initially empty cells. -/
theorem solve_board_depth_bound (b : Board) (hl : b.length = 81) (hv : Valid b)
    (h9 : ∀ p : Pos, bget b p ≤ 9) :
    emptyCount b ≤ 81 ∧
    (∀ c : Board, some c ∈ create_children b → emptyCount c + 1 = emptyCount b) ∧
    (∀ fuel : ℕ, emptyCount b < fuel → solveFuel fuel b = solve_board b) := by
  have hinv : Inv b := ⟨hl, hv, h9⟩
  refine ⟨emptyCount_le_81 b, ?_, ?_⟩
  · intro c hc
    exact ((inv_child hinv hc).2).symm
  · intro fuel hfuel
    exact solve_board_eq_fuel hinv hfuel

/-- Witness for C7 at the concrete board B0 (4 empty cells): fuel 5
already behaves like the unlimited recursion. -/
theorem solve_board_depth_bound_witness : solveFuel 5 B0 = solve_board B0 :=
  (solve_board_depth_bound B0 (by decide) (by decide) (by decide)).2.2 5 (by decide)

/-! The solve_board loop on an explicit branch list. -/

theorem tryChildren_map_some (f : Board → Option Board) (cs : List Board) :
    tryChildren f (cs.map some) = cs.findSome? f := by
  induction cs with
  | nil => rfl
  | cons c cs ih =>
    rw [List.map_cons, tryChildren, List.findSome?_cons]
    rcases hfc : f c with _ | s
    · exact ih
    · rfl

theorem findSome?_congr {f g : Board → Option Board} :
    ∀ {cs : List Board}, (∀ c ∈ cs, f c = g c) → cs.findSome? f = cs.findSome? g := by
  intro cs
  induction cs with
  | nil => intro _; rfl
  | cons c cs ih =>
    intro h
    rw [List.findSome?_cons, List.findSome?_cons, h c (List.mem_cons_self _ _)]
    rcases g c with _ | s
    · exact ih fun c' hc' => h c' (List.mem_cons_of_mem _ hc')
    · rfl

/-- Claim C2: on a Branch outcome the solver tries the children in list
order and propagates the first solution (findSome?, which also returns
none exactly when every child fails); on a DeadEnd outcome it returns
none at once. -/
theorem solver_branch_deadend_behaviour :
    (∀ b : Board, ∀ cs : List Board, b.length = 81 → Valid b →
      (∀ p : Pos, bget b p ≤ 9) → outcome b = .branch cs →
      solve_board b = cs.findSome? solve_board) ∧
    (∀ b : Board, outcome b = .deadEnd → solve_board b = none) := by
  constructor
  · intro b cs hl hv h9 hout
    have hinv : Inv b := ⟨hl, hv, h9⟩
    rcases outcome_branch_inv hout with ⟨hunsolved, -, m, hm, hcs⟩
    have hcc : create_children b = cs.map some := by
      unfold create_children
      rw [hout]
    have he1 : 1 ≤ emptyCount b := solved_emptyCount_pos hunsolved
    unfold solve_board
    rw [solveFuel, if_neg (by simp [hunsolved]), hcc, tryChildren_map_some]
    apply findSome?_congr
    intro c hcmem
    have hc : some c ∈ create_children b := by
      rw [hcc]
      exact List.mem_map_of_mem _ hcmem
    rcases inv_child hinv hc with ⟨hic, hcount⟩
    exact solve_board_eq_fuel hic (by omega)
  · intro b hout
    rcases outcome_deadEnd_inv hout with ⟨hunsolved, -⟩
    have hcc : create_children b = [none] := by
      unfold create_children
      rw [hout]
    unfold solve_board
    rw [solveFuel, if_neg (by simp [hunsolved]), hcc]
    rfl

/-- Witness for C2: the concrete branch board B0 (children in pop order
8 then 3) and the concrete dead-end board Bd. -/
theorem solver_branch_deadend_behaviour_witness :
    solve_board B0 = ([bset B0 m0 8, bset B0 m0 3].findSome? solve_board) ∧
      solve_board Bd = none :=
  ⟨solver_branch_deadend_behaviour.1 B0 [bset B0 m0 8, bset B0 m0 3]
      (by decide) (by decide) (by decide) (by decide),
    solver_branch_deadend_behaviour.2 Bd (by decide)⟩

/-! The scan stops at the first empty cell with at most one candidate. -/

theorem scanCrit_empty {b : Board} {q : Pos} (h : scanCrit b q = true) :
    bget b q = 0 := by
  unfold scanCrit at h
  rcases Bool.and_eq_true .. |>.mp h with ⟨h0, -⟩
  simpa using h0

theorem scanB_of_find? {b : Board} : ∀ {l : List Pos} {p : Pos},
    l.find? (scanCrit b) = some p →
    (candList b p = [] → scanB b l = .dead) ∧
    (∀ v : ℕ, candList b p = [v] → scanB b l = .force p v) := by
  intro l
  induction l with
  | nil => intro p h; cases h
  | cons q rest ih =>
    intro p h
    by_cases hcrit : scanCrit b q = true
    · rw [List.find?_cons_of_pos _ hcrit] at h
      injection h with h
      subst h
      have h0 : bget b q = 0 := scanCrit_empty hcrit
      constructor
      · intro hnil
        rw [scanB, if_neg (by simp [h0]), hnil]
      · intro v hv
        rw [scanB, if_neg (by simp [h0]), hv]
    · rw [List.find?_cons_of_neg _ hcrit] at h
      have hres := ih h
      by_cases h0 : bget b q = 0
      · have hlen : (candList b q).length ≠ 0 ∧ (candList b q).length ≠ 1 := by
          unfold scanCrit at hcrit
          simp only [h0, beq_self_eq_true, Bool.true_and, Bool.or_eq_true,
            beq_iff_eq, not_or] at hcrit
          push_neg at hcrit
          exact hcrit
        rcases hcl : candList b q with _ | ⟨w, _ | ⟨w', tl⟩⟩
        · rw [hcl] at hlen; simp at hlen
        · rw [hcl] at hlen; simp at hlen
        · constructor
          · intro hnil
            rw [scanB, if_neg (by simp [h0]), hcl]
            exact hres.1 hnil
          · intro v hv
            rw [scanB, if_neg (by simp [h0]), hcl]
            exact hres.2 v hv
      · constructor
        · intro hnil
          rw [scanB, if_pos (by simpa using h0)]
          exact hres.1 hnil
        · intro v hv
          rw [scanB, if_pos (by simpa using h0)]
          exact hres.2 v hv

/-- Claim C3: the row-major scan is decided by the first empty cell whose
candidate set has at most one element: an empty candidate set there gives
DeadEnd, a singleton gives Forced with that single substitution, and
nothing past that cell can influence the result. -/
theorem scan_stops_at_first_critical (b : Board) (p : Pos)
    (hfind : positions.find? (scanCrit b) = some p) :
    (candList b p = [] → outcome b = .deadEnd) ∧
    (∀ v : ℕ, candList b p = [v] → outcome b = .forced (bset b p v)) := by
  have hscan := scanB_of_find? hfind
  have hcrit : scanCrit b p = true := List.find?_some hfind
  have h0 : bget b p = 0 := scanCrit_empty hcrit
  have hunsolved : board_is_solved b = false := by
    unfold board_is_solved
    apply List.all_eq_false.mpr
    exact ⟨p, mem_positions p, by simp [h0]⟩
  constructor
  · intro hnil
    unfold outcome
    rw [if_neg (by simp [hunsolved]), hscan.1 hnil]
  · intro v hv
    unfold outcome
    rw [if_neg (by simp [hunsolved]), hscan.2 v hv]

/-- Witness for C3: the scan dead-ends at A1 on Bd and is forced at A1
with the single candidate 3 on Bf. -/
theorem scan_stops_at_first_critical_witness :
    outcome Bd = .deadEnd ∧ outcome Bf = .forced (bset Bf m0 3) :=
  ⟨(scan_stops_at_first_critical Bd m0 (by decide)).1 (by decide),
    (scan_stops_at_first_critical Bf m0 (by decide)).2 3 (by decide)⟩

/-- Counterexample to claim C4 as stated: on the concrete valid board B0
the branch cell is A1 with candidate set 3 and 8 (ascending as a set), but
the children are created in CPython pop order 8 then 3, so the child
sequence is not ordered by ascending candidate value. -/
theorem branch_children_not_ascending :
    minPos? B0 = some m0 ∧
    candList B0 m0 = [3, 8] ∧
    outcome B0 = .branch [bset B0 m0 8, bset B0 m0 3] ∧
    ([bset B0 m0 8, bset B0 m0 3].map fun c => bget c m0) = [8, 3] ∧
    ¬ List.Sorted (· ≤ ·) [8, 3] :=
  ⟨by decide, by decide, by decide, by decide, by decide⟩

/-- Claim C4 (amended): on a Branch outcome the children are exactly one
per value of the selected cell's candidate set (a permutation of it), in
the CPython set-pop order; that order coincides with ascending numeric
order whenever the candidate set has at least five values, but not in
general.  The candidate set itself is strictly ascending. -/
theorem branch_one_child_per_candidate (b : Board) (cs : List Board) (m : Pos)
    (hl : b.length = 81) (h : outcome b = .branch cs) (hm : minPos? b = some m) :
    List.Perm (cs.map fun c => bget c m) (candList b m) ∧
    (5 ≤ (candList b m).length → (cs.map fun c => bget c m) = candList b m) ∧
    (candList b m).Pairwise (· < ·) := by
  rcases outcome_branch_inv h with ⟨-, -, m', hm', hcs⟩
  rw [hm] at hm'
  injection hm' with hm'
  subst hm'
  have hmap : (cs.map fun c => bget c m) = popOrder (candList b m) := by
    rw [hcs, List.map_map]
    have hco : ((fun c => bget c m) ∘ bset b m) = fun v => v := by
      funext v
      exact bget_bset_self b m v hl
    rw [hco]
    exact List.map_id _
  refine ⟨?_, ?_, candList_sorted b m⟩
  · rw [hmap]
    exact popOrder_perm _
  · intro h5
    rw [hmap]
    unfold popOrder
    rw [if_pos h5]

/-- Witness for the amended C4 at the concrete branch board B0. -/
theorem branch_one_child_per_candidate_witness :
    List.Perm ([bset B0 m0 8, bset B0 m0 3].map fun c => bget c m0) (candList B0 m0) ∧
    (5 ≤ (candList B0 m0).length →
      ([bset B0 m0 8, bset B0 m0 3].map fun c => bget c m0) = candList B0 m0) ∧
    (candList B0 m0).Pairwise (· < ·) :=
  branch_one_child_per_candidate B0 [bset B0 m0 8, bset B0 m0 3] m0
    (by decide) (by decide) (by decide)

/-- Claim C6: every non-sentinel element of the children list fills
exactly one previously empty cell with a nonzero value, agrees with the
parent everywhere else, and has exactly one more filled cell. -/
theorem child_fills_exactly_one (b c : Board) (hl : b.length = 81)
    (h : some c ∈ create_children b) :
    ∃ p : Pos, bget b p = 0 ∧ bget c p ≠ 0 ∧
      (∀ q : Pos, q ≠ p → bget c q = bget b q) ∧
      filledCount c = filledCount b + 1 := by
  rcases create_children_mem h with ⟨p, v, h0, hcand, rfl⟩
  have hvne : v ≠ 0 := candList_pos hcand
  refine ⟨p, h0, ?_, ?_, filledCount_bset hl h0 hvne⟩
  · rw [bget_bset_self b p v hl]
    exact hvne
  · intro q hq
    exact bget_bset_ne b p v hq

/-- Witness for C6: the first child of the branch at B0. -/
theorem child_fills_exactly_one_witness :
    ∃ p : Pos, bget B0 p = 0 ∧ bget (bset B0 m0 8) p ≠ 0 ∧
      (∀ q : Pos, q ≠ p → bget (bset B0 m0 8) q = bget B0 q) ∧
      filledCount (bset B0 m0 8) = filledCount B0 + 1 :=
  child_fills_exactly_one B0 (bset B0 m0 8) (by decide) (by decide)

/-- Claim C8: the branching cell is the empty cell with the smallest
candidate count, ties resolved in favour of the earliest cell in
row-major order. -/
theorem branch_cell_minimal_first (b : Board) (cs : List Board)
    (h : outcome b = .branch cs) :
    ∃ m : Pos, minPos? b = some m ∧ bget b m = 0 ∧
      cs = (popOrder (candList b m)).map (bset b m) ∧
      ∀ q : Pos, bget b q = 0 →
        (candList b m).length ≤ (candList b q).length ∧
        ((candList b q).length = (candList b m).length → posIdx m ≤ posIdx q) := by
  rcases outcome_branch_inv h with ⟨-, hcomplete, m, hm, hcs⟩
  have hge2 := scanB_complete hcomplete
  rcases minPos_spec hm with ⟨l1, l2, hsplit, hlt, hle⟩
  have hm0 : bget b m = 0 := (minPos_mem hm).1
  refine ⟨m, hm, hm0, hcs, ?_⟩
  intro q hq
  have hq2 : 2 ≤ (candList b q).length := hge2 q (mem_positions q) hq
  have hqmem : q ∈ posOptions b := mem_posOptions.mpr ⟨hq, fun hnil => by
    rw [hnil] at hq2
    simp at hq2⟩
  have hpw : (posOptions b).Pairwise fun x y => posIdx x < posIdx y :=
    List.Pairwise.sublist (List.filter_sublist _) positions_sorted
  rw [hsplit] at hqmem hpw
  rcases List.mem_append.mp hqmem with hq1 | hq2'
  · have hstrict := hlt q hq1
    exact ⟨le_of_lt hstrict, fun heq => absurd hstrict (by omega)⟩
  · rcases List.mem_cons.mp hq2' with rfl | hql2
    · exact ⟨le_refl _, fun _ => le_refl _⟩
    · refine ⟨hle q hql2, fun _ => ?_⟩
      have hrest := (List.pairwise_append.mp hpw).2.1
      have hmq := (List.pairwise_cons.mp hrest).1 q hql2
      omega

/-- Witness for C8 at the concrete branch board B0 (branch cell A1). -/
theorem branch_cell_minimal_first_witness :
    ∃ m : Pos, minPos? B0 = some m ∧ bget B0 m = 0 ∧
      [bset B0 m0 8, bset B0 m0 3] = (popOrder (candList B0 m)).map (bset B0 m) ∧
      ∀ q : Pos, bget B0 q = 0 →
        (candList B0 m).length ≤ (candList B0 q).length ∧
        ((candList B0 q).length = (candList B0 m).length → posIdx m ≤ posIdx q) :=
  branch_cell_minimal_first B0 [bset B0 m0 8, bset B0 m0 3] (by decide)

/-- Claim C9: on a validly constructed unsolved board, create_children
always appends at least one element (the sentinel, one forced child, or at
least two branch children), and when the scan completes the collection the
minimum is taken over is nonempty, so min never sees an empty collection. -/
theorem create_children_nonempty (b : Board) (hv : Valid b)
    (hs : board_is_solved b = false) :
    (create_children b = [none] ∨ (∃ c : Board, create_children b = [some c]) ∨
      2 ≤ (create_children b).length) ∧
    (scanB b positions = .complete → posOptions b ≠ [] ∧ (minPos? b).isSome) := by
  have hasEmpty : ∃ p : Pos, bget b p = 0 := by
    rcases List.all_eq_false.mp hs with ⟨p, hp, hne⟩
    exact ⟨p, by simpa using hne⟩
  have hpoNE : scanB b positions = .complete → posOptions b ≠ [] := by
    intro hcomplete
    rcases hasEmpty with ⟨p, hp0⟩
    have h2 := scanB_complete hcomplete p (mem_positions p) hp0
    have hmem : p ∈ posOptions b := mem_posOptions.mpr ⟨hp0, fun hnil => by
      rw [hnil] at h2
      simp at h2⟩
    exact List.ne_nil_of_mem hmem
  constructor
  · rcases hscan : scanB b positions with _ | ⟨p, v⟩ | _
    · left
      have hob : outcome b = .deadEnd := by
        unfold outcome
        rw [if_neg (by simp [hs]), hscan]
      unfold create_children
      rw [hob]
    · right
      left
      refine ⟨bset b p v, ?_⟩
      have hob : outcome b = .forced (bset b p v) := by
        unfold outcome
        rw [if_neg (by simp [hs]), hscan]
      unfold create_children
      rw [hob]
    · rcases minPos_some_of_nonempty (hpoNE hscan) with ⟨m, hm⟩
      right
      right
      have hob : outcome b = .branch ((popOrder (candList b m)).map (bset b m)) := by
        unfold outcome
        rw [if_neg (by simp [hs]), hscan, hm]
      unfold create_children
      rw [hob]
      have hm0 := minPos_mem hm
      have hge := scanB_complete hscan m (mem_positions m) hm0.1
      simp only [List.length_map, popOrder_length]
      exact hge
  · intro hcomplete
    refine ⟨hpoNE hcomplete, ?_⟩
    rcases minPos_some_of_nonempty (hpoNE hcomplete) with ⟨m, hm⟩
    rw [hm]
    rfl

/-- Witness for C9 at the concrete unsolved branch board B0. -/
theorem create_children_nonempty_witness :
    (create_children B0 = [none] ∨ (∃ c : Board, create_children B0 = [some c]) ∨
      2 ≤ (create_children B0).length) ∧
    (scanB B0 positions = .complete → posOptions B0 ≠ [] ∧ (minPos? B0).isSome) :=
  create_children_nonempty B0 (by decide) (by decide)

/-! Board construction: the consistency loop of Board.__init__. -/

theorem construct_error_iff (a : List (Pos × ℕ)) :
    construct a = .error .invalidBoard ↔ assertOk (lookupA a) = false := by
  unfold construct
  by_cases h : assertOk (lookupA a) = true
  · rw [if_pos h]
    constructor
    · intro hc; cases hc
    · intro hf; rw [h] at hf; cases hf
  · rw [if_neg h]
    simp [Bool.eq_false_iff.mpr h]

theorem assertOk_false_of_missing {a : List (Pos × ℕ)} {p : Pos}
    (hp : lookupA a p = none) : assertOk (lookupA a) = false := by
  apply List.all_eq_false.mpr
  refine ⟨p, mem_positions p, ?_⟩
  simp [hp]

theorem assertOk_false_of_dup {a : List (Pos × ℕ)} {p q : Pos} {v : ℕ}
    (hnb : isNeighbour p q = true) (hv0 : v ≠ 0)
    (hp : lookupA a p = some v) (hq : lookupA a q = some v) :
    assertOk (lookupA a) = false := by
  apply List.all_eq_false.mpr
  refine ⟨p, mem_positions p, ?_⟩
  simp only [hp]
  intro hcontra
  rcases Bool.or_eq_true .. |>.mp hcontra with hc0 | hall
  · exact hv0 (by simpa using hc0)
  · have hinner := List.all_eq_true.mp hall q (mem_neighbours.mpr hnb)
    rw [hq] at hinner
    simp at hinner

theorem assertOk_false_iff_dup {a : List (Pos × ℕ)}
    (hcov : ∀ p : Pos, (lookupA a p).isSome = true) :
    assertOk (lookupA a) = false ↔
      ∃ p q : Pos, ∃ v : ℕ, isNeighbour p q = true ∧ v ≠ 0 ∧
        lookupA a p = some v ∧ lookupA a q = some v := by
  constructor
  · intro hko
    rcases List.all_eq_false.mp hko with ⟨p, hp, hbody⟩
    rcases hsp : lookupA a p with _ | v
    · exact absurd (hcov p) (by rw [hsp]; simp)
    · rw [hsp] at hbody
      simp only [Bool.or_eq_true, beq_iff_eq, not_or] at hbody
      obtain ⟨hv0, hall⟩ := hbody
      have hallf := Bool.eq_false_iff.mpr hall
      rcases List.all_eq_false.mp hallf with ⟨q, hqmem, hinner⟩
      rcases hsq : lookupA a q with _ | w
      · exact absurd (hcov q) (by rw [hsq]; simp)
      · rw [hsq] at hinner
        have hvw : v = w := by simpa using hinner
        exact ⟨p, q, v, mem_neighbours.mp hqmem, hv0, hsp, by rw [hsq, hvw]⟩
  · rintro ⟨p, q, v, hnb, hv0, hp, hq⟩
    exact assertOk_false_of_dup hnb hv0 hp hq

/-- Claim C5: construction fails with the typed InvalidBoard result on any
assignment missing some cell and on any assignment in which a filled cell
shares its nonzero value with a row, column or box neighbour. -/
theorem construct_rejects_invalid (a : List (Pos × ℕ))
    (h : (∃ p : Pos, lookupA a p = none) ∨
        ∃ p q : Pos, ∃ v : ℕ, isNeighbour p q = true ∧ v ≠ 0 ∧
          lookupA a p = some v ∧ lookupA a q = some v) :
    construct a = .error .invalidBoard := by
  apply (construct_error_iff a).mpr
  rcases h with ⟨p, hp⟩ | ⟨p, q, v, hnb, hv0, hp, hq⟩
  · exact assertOk_false_of_missing hp
  · exact assertOk_false_of_dup hnb hv0 hp hq

/-- Witness for C5: the spec's rejection example, A1 = A2 = 5, rest 0. -/
theorem construct_rejects_invalid_witness : construct a5 = .error .invalidBoard :=
  construct_rejects_invalid a5
    (Or.inr ⟨m0, ((0 : Fin 9), (1 : Fin 9)), 5, by decide, by decide, by decide, by decide⟩)

/-- Claim C10: on assignments covering all 81 cells, construction fails
exactly when some nonzero value is shared with a neighbour; there is no
range check, so the covering assignment a17 with value 17 at A1 constructs
successfully; and board_is_solved counts any nonzero value as filled. -/
theorem construct_covered_iff_duplicate :
    (∀ a : List (Pos × ℕ), (∀ p : Pos, (lookupA a p).isSome = true) →
      (construct a = .error .invalidBoard ↔
        ∃ p q : Pos, ∃ v : ℕ, isNeighbour p q = true ∧ v ≠ 0 ∧
          lookupA a p = some v ∧ lookupA a q = some v)) ∧
    construct a17 = .ok b17 ∧ bget b17 m0 = 17 ∧
    (∀ b : Board, board_is_solved b = true ↔ ∀ p : Pos, bget b p ≠ 0) := by
  refine ⟨?_, by decide, by decide, ?_⟩
  · intro a hcov
    rw [construct_error_iff]
    exact assertOk_false_iff_dup hcov
  · intro b
    unfold board_is_solved
    rw [List.all_eq_true]
    constructor
    · intro h p
      simpa using h p (mem_positions p)
    · intro h p hp
      simpa using h p

/-- Witness for C10: the covered assignment a5 fails, and the failure
certificate extracted through the iff names the duplicate pair. -/
theorem construct_covered_iff_duplicate_witness :
    ∃ p q : Pos, ∃ v : ℕ, isNeighbour p q = true ∧ v ≠ 0 ∧
      lookupA a5 p = some v ∧ lookupA a5 q = some v :=
  (construct_covered_iff_duplicate.1 a5 (by decide)).mp (by decide)

end Sudoku
